import Mathlib

/-!
Shallow Lean embedding of the core of the `failsafe` C++ diagnostics library
(headers `detail/string_utils.hh`, `detail/location_format.hh`, `exception.hh`,
`enforce.hh`), together with theorems settling the specification claims about
the value renderer, the message builder, the enforcement engine and the
exception chain recorder.

Strings are modelled by Lean `String` (a list of characters, matching
`std::string` contents); machine integers by `Int` together with an explicit
bit width, the unsigned reinterpretation being reduction modulo `2 ^ bits`.
Raising an exception is modelled by returning the constructed exception value.
Loops on numbers (`while (temp) temp >>= 1;` and the like) are written with an
explicit structural fuel argument so that every definition is kernel-reducible;
unfold lemmas below recover the natural recursion equations.
-/

namespace Failsafe

/-- Left padding with a fill character up to a minimum field width; models the
effect of `std::setw(w)` with `std::setfill(fill)` on a right-adjusted
stream insertion whose unpadded text is `s`. -/
def padLeftL (w : Nat) (fill : Char) (s : List Char) : List Char :=
  if s.length < w then List.replicate (w - s.length) fill ++ s else s

/-- The character a single digit prints as, in bases up to 16; `uppercase`
selects `A`–`F` over `a`–`f` (models `std::uppercase` on hex output). -/
def digitChar (uppercase : Bool) (d : Nat) : Char :=
  if d < 10 then Char.ofNat (48 + d)
  else if uppercase then Char.ofNat (55 + d)
  else Char.ofNat (87 + d)

/-- Fuelled division loop producing base-`b` digits of `n`, least significant
first (empty for `n = 0`); the fuel is structural only. -/
def natDigitsRevF : Nat → Nat → Nat → List Nat
  | 0, _, _ => []
  | fuel + 1, b, n =>
    if n = 0 ∨ b < 2 then [] else n % b :: natDigitsRevF fuel b (n / b)

/-- Base-`b` digits of `n`, least significant first (empty for `n = 0`). -/
def natDigitsRev (b n : Nat) : List Nat :=
  natDigitsRevF n b n

/-- Digit characters of `n` in base `b`, most significant first; models the
text `operator<<` produces for an unsigned integer under `std::hex` /
`std::oct` / decimal (`"0"` for a zero value). -/
def natToBase (b : Nat) (uppercase : Bool) (n : Nat) : List Char :=
  if n = 0 then ['0'] else ((natDigitsRev b n).reverse).map (digitChar uppercase)

/-- Unsigned reinterpretation of a `bits`-wide machine integer; models
`static_cast<std::make_unsigned_t<T>>(value)`. -/
def toUnsigned (bits : Nat) (value : Int) : Nat :=
  (value % ((2 : Int) ^ bits)).toNat

/-- Rendering of `hex_format{value, width, show_base, uppercase}` for an
integral payload of width `bits`; models `append_to_stream(oss, hex_format)`
in `detail/string_utils.hh`: the `0x` prefix is emitted when `show_base` and
the value is nonzero or the width positive, the value is cast to unsigned,
and the digits are padded to `width` with `'0'`. -/
def hex_format (bits : Nat) (value : Int) (width : Nat)
    (show_base uppercase : Bool) : String :=
  String.mk
    ((if show_base ∧ (value ≠ 0 ∨ 0 < width) then ['0', 'x'] else []) ++
      padLeftL width '0' (natToBase 16 uppercase (toUnsigned bits value)))

/-- Rendering of `hex_format` for a pointer payload, the address given as a
`Nat` (`0` = null); models the pointer branch of
`append_to_stream(oss, hex_format)`: `0x` only when non-null, a null pointer
prints `nullptr` (still subject to the pending field width and `'0'` fill,
which `oss.flags(flags)` does not reset). -/
def hex_format_ptr (addr width : Nat) (show_base uppercase : Bool) : String :=
  if addr = 0 then String.mk (padLeftL width '0' "nullptr".data)
  else
    String.mk
      ((if show_base then ['0', 'x'] else []) ++
        padLeftL width '0' (natToBase 16 uppercase addr))

/-- Rendering of `oct_format{value, width, show_base}` for an integral payload
of width `bits`; models `append_to_stream(oss, oct_format)`: with
`show_base` and a nonzero value a literal `0` is emitted first and, when a
width is requested, the remaining digits are padded only to `width - 1`. -/
def oct_format (bits : Nat) (value : Int) (width : Nat)
    (show_base : Bool) : String :=
  let digits := natToBase 8 false (toUnsigned bits value)
  String.mk
    (if 0 < width ∧ show_base ∧ value ≠ 0 then
      '0' :: padLeftL (width - 1) '0' digits
    else if 0 < width then padLeftL width '0' digits
    else if show_base ∧ value ≠ 0 then '0' :: digits
    else digits)

/-- Fuelled shift loop counting binary digits; the fuel is structural only. -/
def countBitsF : Nat → Nat → Nat
  | 0, _ => 0
  | fuel + 1, u => if u = 0 then 0 else countBitsF fuel (u / 2) + 1

/-- Number of binary digits of `u`; models the `while (temp) { bits_to_show++;
temp >>= 1; }` loop of `append_to_stream(oss, bin_format)`. -/
def countBits (u : Nat) : Nat :=
  countBitsF u u

/-- The character bit `i` of `u` prints as; models `((uvalue >> i) & 1)`. -/
def bitChar (u i : Nat) : Char :=
  if u / 2 ^ i % 2 = 1 then '1' else '0'

/-- Emission loop of `append_to_stream(oss, bin_format)`: positions `is` are
emitted in order while `k` counts emitted bits, and a single space is
inserted before a bit exactly when `0 < k`, the group size is positive and
`k` is a multiple of it. -/
def groupBitsAux (u g : Nat) : Nat → List Nat → List Char
  | _, [] => []
  | k, i :: rest =>
    (if 0 < k ∧ 0 < g ∧ k % g = 0 then [' '] else []) ++
      bitChar u i :: groupBitsAux u g (k + 1) rest

/-- The grouped bit string for the low `n` bits of `u`, groups of `g`. -/
def groupBits (u n g : Nat) : List Char :=
  groupBitsAux u g 0 (List.range n).reverse

/-- Rendering of `bin_format{value, width, show_base, group_size}` for an
integral payload of width `bits`; models `append_to_stream(oss, bin_format)`:
`0b` when `show_base`, then `width` bits if `width` is nonzero, else the
significant bits of the value (at least one), grouped by `group_size`. -/
def bin_format (bits : Nat) (value : Int) (width : Nat) (show_base : Bool)
    (group_size : Nat) : String :=
  let uvalue := toUnsigned bits value
  let bitsToShow :=
    if 0 < width then width else if uvalue = 0 then 1 else countBits uvalue
  String.mk
    ((if show_base then ['0', 'b'] else []) ++ groupBits uvalue bitsToShow group_size)

/-- The number of bits `bin_format` shows: `width` when nonzero, else the
significant bits of the unsigned value, at least one. -/
def bin_bits_shown (bits : Nat) (value : Int) (width : Nat) : Nat :=
  if 0 < width then width
  else if toUnsigned bits value = 0 then 1
  else countBits (toUnsigned bits value)

/-- The same space-insertion loop as `groupBitsAux`, acting on already
rendered characters; used to characterize the grouping. -/
def insertSpaces (g : Nat) : Nat → List Char → List Char
  | _, [] => []
  | k, c :: rest =>
    (if 0 < k ∧ 0 < g ∧ k % g = 0 then [' '] else []) ++
      c :: insertSpaces g (k + 1) rest

/-- Fuelled front-chunking of a list; the fuel is structural only. -/
def chunksLeftF : Nat → Nat → List α → List (List α)
  | 0, _, _ => []
  | _ + 1, _, [] => []
  | fuel + 1, g, a :: l =>
    if g = 0 then []
    else (a :: l).take g :: chunksLeftF fuel g ((a :: l).drop g)

/-- Chunks of `g` consecutive elements taken from the front of a list (the
last chunk may be shorter); used to state what the bin grouping does. -/
def chunksLeft (g : Nat) (l : List α) : List (List α) :=
  chunksLeftF l.length g l

/-- Join of a list of chunks with a single separator list between chunks. -/
def joinSepL (sep : List Char) : List (List Char) → List Char
  | [] => []
  | [x] => x
  | x :: y :: rest => x ++ sep ++ joinSepL sep (y :: rest)

/-- Modelled from the spec: binary rendering whose bit groups are counted
from the least-significant end, as §4.1 ("Bits are grouped from the
least-significant end in chunks of `group_size`") describes; stated only to
be compared against `bin_format`, which is translated from the source. -/
def bin_format_spec_lsb (bits : Nat) (value : Int) (width : Nat)
    (show_base : Bool) (group_size : Nat) : String :=
  let uvalue := toUnsigned bits value
  let bitsToShow :=
    if 0 < width then width else if uvalue = 0 then 1 else countBits uvalue
  let bitList := ((List.range bitsToShow).reverse).map (bitChar uvalue)
  let grouped :=
    if group_size = 0 then bitList
    else
      joinSepL [' '] (((chunksLeft group_size bitList.reverse).map List.reverse).reverse)
  String.mk ((if show_base then ['0', 'b'] else []) ++ grouped)

/-- The message builder `build_message(args...)` of `detail/string_utils.hh`,
acting on the already rendered arguments: each argument is appended to the
stream followed by a space, then one trailing space is removed if the
accumulated string ends with one; no arguments yield the empty string. -/
def build_message (args : List String) : String :=
  match args with
  | [] => ""
  | _ =>
    let output := (args.map (fun a => a.data ++ [' '])).flatten
    if output.getLast? = some ' ' then String.mk output.dropLast
    else String.mk output

/-- Modelled from the spec: "concatenates with a single space between
consecutive arguments" (§4.2); stated only to be compared against
`build_message`, which is translated from the source. -/
def joinWithSpaces : List String → String
  | [] => ""
  | [a] => a
  | a :: b :: rest => a ++ " " ++ joinWithSpaces (b :: rest)

/-- Join of a list of strings with a given separator between consecutive
elements; used to characterize the container formatter's item sequence. -/
def joinSepS (sep : String) : List String → String
  | [] => ""
  | [a] => a
  | a :: b :: rest => a ++ sep ++ joinSepS sep (b :: rest)

/-- The container formatter `append_to_stream(oss, container_format)` of
`detail/string_utils.hh`, acting on the already rendered elements of a
sequence container: the start index is clamped (beyond the size only prefix
and suffix are emitted), `items_to_show = min(max_items, size - start_index)`
elements are emitted with the delimiter (plus newline and indent when
multiline) between them, a trailing `delimiter + ellipsis` marks truncation
when something was shown, and the whole is wrapped in prefix/suffix. -/
def container_format (elems : List String) (max_items start_index : Nat)
    (pfx sfx delimiter ellipsis : String) (show_indices multiline : Bool)
    (indent : String) : String :=
  let size := elems.length
  if start_index < size then
    let items_to_show := min max_items (size - start_index)
    let truncated := start_index + items_to_show < size
    let shown := List.enumFrom start_index ((elems.drop start_index).take items_to_show)
    let body := String.join (shown.map (fun p =>
      (if start_index < p.1 then delimiter ++ (if multiline then "\n" else "") else "") ++
        (if multiline then indent else "") ++
        (if show_indices then "[" ++ toString p.1 ++ "]: " else "") ++ p.2))
    pfx ++ (if multiline ∧ 0 < items_to_show then "\n" else "") ++ body ++
      (if truncated then
        (if 0 < items_to_show then delimiter ++ (if multiline then "\n" ++ indent else "") else "") ++
          ellipsis
      else "") ++
      (if multiline ∧ (0 < items_to_show ∨ truncated) then "\n" else "") ++ sfx
  else pfx ++ sfx

/-- Modelled from the spec: the container algorithm of §4.1, which appends
`delimiter` then `ellipsis` whenever elements remain beyond the shown
window (with no exception for an empty window); single-line form. Stated
only to be compared against `container_format`, which is translated from
the source. -/
def container_format_spec (elems : List String) (max_items start_index : Nat)
    (pfx sfx delimiter ellipsis : String) : String :=
  let size := elems.length
  if start_index < size then
    let items_to_show := min max_items (size - start_index)
    let truncated := start_index + items_to_show < size
    pfx ++ joinSepS delimiter ((elems.drop start_index).take items_to_show) ++
      (if truncated then delimiter ++ ellipsis else "") ++ sfx
  else pfx ++ sfx

/-- Source location rendering `format_location(file, line)` of
`detail/location_format.hh` under the default configuration
(`FAILSAFE_LOCATION_FORMAT_STYLE == 0`, full path): `[file:line]`. -/
def format_location (file : String) (line : Int) : String :=
  "[" ++ file ++ ":" ++ toString line ++ "]"

/-- A raised failure: `what` is the text carried by the exception object and
the constructor tells how `std::rethrow_if_nested` sees its nested cause —
none (`leaf`), a recognized `std::exception` (`nested`), or a nested
exception that is not a `std::exception` (`nestedUnknown`). -/
inductive Exn where
  | leaf (what : String)
  | nested (what : String) (cause : Exn)
  | nestedUnknown (what : String)
deriving DecidableEq

/-- The `what()` text of a failure. -/
def Exn.what : Exn → String
  | .leaf w => w
  | .nested w _ => w
  | .nestedUnknown w => w

/-- The recognized nested cause of a failure, if any. -/
def Exn.cause : Exn → Option Exn
  | .nested _ c => some c
  | _ => none

/-- `failsafe::exception::internal::throw_exception` of `exception.hh` in the
default trap mode: the thrown exception's text is the formatted location,
one space, and the built message; when `std::current_exception()` is
non-null (the call happens inside a handler for `cur`) the new failure is
nested on top of that in-flight failure via `std::throw_with_nested`. -/
def throw_exception (file : String) (line : Int) (args : List String)
    (cur : Option Exn) : Exn :=
  let what := format_location file line ++ " " ++ build_message args
  match cur with
  | some c => Exn.nested what c
  | none => Exn.leaf what

/-- Indentation of `indent_level` nesting levels, two spaces per level;
models `std::string(indent_level * 2u, ' ')`. -/
def indentOf (indent_level : Nat) : String :=
  String.mk (List.replicate (indent_level * 2) ' ')

/-- `failsafe::exception::get_nested_trace` of `exception.hh`: renders
`indent + "→ " + what + "\n"`, then the trace of a recognized nested
exception at the next indent level, or the placeholder line
`indent + "  → [unknown nested exception]\n"` for an unrecognized one. -/
def get_nested_trace : Exn → Nat → String
  | .leaf w, lvl => indentOf lvl ++ "→ " ++ w ++ "\n"
  | .nested w c, lvl =>
    indentOf lvl ++ "→ " ++ w ++ "\n" ++ get_nested_trace c (lvl + 1)
  | .nestedUnknown w, lvl =>
    indentOf lvl ++ "→ " ++ w ++ "\n" ++ indentOf lvl ++
      "  → [unknown nested exception]\n"

/-- The trace as a list of lines (without the newlines), outermost failure
first; used to characterize `get_nested_trace`. -/
def flatten_lines : Exn → Nat → List String
  | .leaf w, lvl => [indentOf lvl ++ "→ " ++ w]
  | .nested w c, lvl => (indentOf lvl ++ "→ " ++ w) :: flatten_lines c (lvl + 1)
  | .nestedUnknown w, lvl =>
    [indentOf lvl ++ "→ " ++ w,
      indentOf (lvl + 1) ++ "→ [unknown nested exception]"]

/-- Concatenation of lines, a newline after each one. -/
def concatLines : List String → String
  | [] => ""
  | l :: rest => l ++ "\n" ++ concatLines rest

/-- The state of `failsafe::enforce::enforcer<T, Predicate, Raiser>` from
`enforce.hh`: the checked value, the expression text, the predicate
description, the capture location, and the `failed_` / `handled_` flags
(`failed_ = !passed` is fixed at construction; `handled_` starts false). -/
structure enforcer (T : Type) where
  value : T
  expr : String
  description : String
  file : String
  line : Int
  failed : Bool
  handled : Bool
deriving DecidableEq

/-- `enforcer::operator()(args...)`: when `failed_`, set `handled_` and invoke
the raiser with the custom message — note the source tests `failed_` only,
not `handled_`; otherwise return unchanged. The raised exception (if any)
is returned alongside the new state. -/
def enforcer_call {T : Type} (e : enforcer T) (args : List String)
    (cur : Option Exn) : enforcer T × Option Exn :=
  if e.failed then
    ({ e with handled := true }, some (throw_exception e.file e.line args cur))
  else (e, none)

/-- `enforcer::~enforcer()`: when `failed_ && !handled_`, set `handled_` and
invoke the raiser with the default message built from the expression text
and the predicate description. -/
def enforcer_dtor {T : Type} (e : enforcer T) (cur : Option Exn) :
    enforcer T × Option Exn :=
  if e.failed ∧ ¬e.handled then
    ({ e with handled := true },
      some (throw_exception e.file e.line
        ["Enforcement failed: ", e.expr, " - ", e.description] cur))
  else (e, none)

/-- The factory `failsafe::enforce::enforce_eq(value, expected, expr, file,
line)` behind `ENFORCE_EQ`, on integers: the `equal_to` predicate is
evaluated once at construction and its description is
"Values must be equal". -/
def enforce_eq (value expected : Int) (expr file : String) (line : Int) :
    enforcer Int :=
  { value := value, expr := expr, description := "Values must be equal",
    file := file, line := line, failed := !(value == expected),
    handled := false }

/-! ## Helper theorems -/

theorem natDigitsRevF_congr :
    ∀ (f₁ f₂ b n : Nat), n ≤ f₁ → n ≤ f₂ →
      natDigitsRevF f₁ b n = natDigitsRevF f₂ b n := by
  intro f₁
  induction f₁ with
  | zero =>
    intro f₂ b n h₁ h₂
    have hn : n = 0 := Nat.le_zero.mp h₁
    subst hn
    cases f₂ <;> simp [natDigitsRevF]
  | succ f ih =>
    intro f₂ b n h₁ h₂
    cases f₂ with
    | zero =>
      have hn : n = 0 := Nat.le_zero.mp h₂
      subst hn
      simp [natDigitsRevF]
    | succ f₂ =>
      by_cases hc : n = 0 ∨ b < 2
      · simp [natDigitsRevF, hc]
      · push_neg at hc
        have hdiv : n / b < n :=
          Nat.div_lt_self (Nat.pos_of_ne_zero hc.1) hc.2
        have hcond : ¬(n = 0 ∨ b < 2) := by
          push_neg
          exact hc
        simp only [natDigitsRevF, if_neg hcond]
        exact congrArg _ (ih f₂ b (n / b) (by omega) (by omega))

theorem natDigitsRev_unfold (b n : Nat) :
    natDigitsRev b n =
      if n = 0 ∨ b < 2 then [] else n % b :: natDigitsRev b (n / b) := by
  unfold natDigitsRev
  cases n with
  | zero => simp [natDigitsRevF]
  | succ m =>
    by_cases hc : m + 1 = 0 ∨ b < 2
    · simp only [natDigitsRevF, if_pos hc]
    · push_neg at hc
      have hdiv : (m + 1) / b < m + 1 :=
        Nat.div_lt_self (Nat.succ_pos m) hc.2
      have hcond : ¬(m + 1 = 0 ∨ b < 2) := by
        push_neg
        exact hc
      simp only [natDigitsRevF, if_neg hcond]
      exact congrArg _
        (natDigitsRevF_congr m ((m + 1) / b) b ((m + 1) / b) (by omega) (le_refl _))

theorem countBitsF_congr :
    ∀ (f₁ f₂ u : Nat), u ≤ f₁ → u ≤ f₂ →
      countBitsF f₁ u = countBitsF f₂ u := by
  intro f₁
  induction f₁ with
  | zero =>
    intro f₂ u h₁ h₂
    have hu : u = 0 := Nat.le_zero.mp h₁
    subst hu
    cases f₂ <;> simp [countBitsF]
  | succ f ih =>
    intro f₂ u h₁ h₂
    cases f₂ with
    | zero =>
      have hu : u = 0 := Nat.le_zero.mp h₂
      subst hu
      simp [countBitsF]
    | succ f₂ =>
      by_cases hu : u = 0
      · simp [countBitsF, hu]
      · have hdiv : u / 2 < u := Nat.div_lt_self (Nat.pos_of_ne_zero hu) (by omega)
        simp only [countBitsF, if_neg hu]
        rw [ih f₂ (u / 2) (by omega) (by omega)]

theorem countBits_unfold (u : Nat) :
    countBits u = if u = 0 then 0 else countBits (u / 2) + 1 := by
  unfold countBits
  cases u with
  | zero => simp [countBitsF]
  | succ m =>
    have hdiv : (m + 1) / 2 < m + 1 := Nat.div_lt_self (Nat.succ_pos m) (by omega)
    simp only [countBitsF, if_neg (Nat.succ_ne_zero m)]
    rw [countBitsF_congr m ((m + 1) / 2) ((m + 1) / 2) (by omega) (le_refl _)]

theorem chunksLeftF_congr :
    ∀ (f₁ f₂ g : Nat) (l : List α), l.length ≤ f₁ → l.length ≤ f₂ →
      chunksLeftF f₁ g l = chunksLeftF f₂ g l := by
  intro f₁
  induction f₁ with
  | zero =>
    intro f₂ g l h₁ h₂
    have hl : l = [] := List.length_eq_zero.mp (Nat.le_zero.mp h₁)
    subst hl
    cases f₂ <;> simp [chunksLeftF]
  | succ f ih =>
    intro f₂ g l h₁ h₂
    cases f₂ with
    | zero =>
      have hl : l = [] := List.length_eq_zero.mp (Nat.le_zero.mp h₂)
      subst hl
      simp [chunksLeftF]
    | succ f₂ =>
      cases l with
      | nil => simp [chunksLeftF]
      | cons a l =>
        by_cases hg : g = 0
        · simp [chunksLeftF, hg]
        · have hg' : 0 < g := Nat.pos_of_ne_zero hg
          simp only [chunksLeftF, if_neg hg]
          have hlen : ((a :: l).drop g).length = (a :: l).length - g :=
            List.length_drop g (a :: l)
          simp only [List.length_cons] at h₁ h₂ hlen
          exact congrArg _ (ih f₂ g ((a :: l).drop g) (by omega) (by omega))

theorem chunksLeft_nil (g : Nat) : chunksLeft g ([] : List α) = [] := by
  simp [chunksLeft, chunksLeftF]

theorem chunksLeft_cons (g : Nat) (a : α) (l : List α) :
    chunksLeft g (a :: l) =
      if g = 0 then []
      else (a :: l).take g :: chunksLeft g ((a :: l).drop g) := by
  unfold chunksLeft
  by_cases hg : g = 0
  · simp [chunksLeftF, hg]
  · have hg' : 0 < g := Nat.pos_of_ne_zero hg
    simp only [List.length_cons, chunksLeftF, if_neg hg]
    have hlen : ((a :: l).drop g).length = (a :: l).length - g :=
      List.length_drop g (a :: l)
    simp only [List.length_cons] at hlen
    exact congrArg _
      (chunksLeftF_congr l.length ((a :: l).drop g).length g ((a :: l).drop g)
        (by omega) (le_refl _))

theorem string_empty_append (s : String) : "" ++ s = s := by
  apply String.ext
  rw [String.data_append]
  exact List.nil_append s.data

theorem string_append_empty (s : String) : s ++ "" = s := by
  apply String.ext
  rw [String.data_append]
  exact List.append_nil s.data

theorem string_append_assoc (a b c : String) : a ++ b ++ c = a ++ (b ++ c) := by
  apply String.ext
  simp only [String.data_append]
  exact List.append_assoc a.data b.data c.data

theorem string_mk_data (s : String) : String.mk s.data = s := by
  obtain ⟨d⟩ := s
  rfl

theorem padLeftL_eq (w : Nat) (c : Char) (s : List Char) :
    padLeftL w c s = List.replicate (w - s.length) c ++ s := by
  unfold padLeftL
  by_cases h : s.length < w
  · rw [if_pos h]
  · rw [if_neg h]
    have : w - s.length = 0 := by omega
    rw [this]
    rfl

theorem padLeftL_length (w : Nat) (c : Char) (s : List Char) :
    (padLeftL w c s).length = max w s.length := by
  rw [padLeftL_eq]
  simp only [List.length_append, List.length_replicate]
  omega

theorem string_join_foldl (l : List String) (a : String) :
    l.foldl (· ++ ·) a = a ++ String.join l := by
  induction l generalizing a with
  | nil => exact (string_append_empty a).symm
  | cons x xs ih =>
    show xs.foldl (· ++ ·) (a ++ x) = a ++ String.join (x :: xs)
    rw [ih (a ++ x), string_append_assoc]
    congr 1
    show x ++ String.join xs = String.join (x :: xs)
    rw [show String.join (x :: xs) = xs.foldl (· ++ ·) ("" ++ x) from rfl,
      string_empty_append, ih x]

theorem string_join_cons (x : String) (xs : List String) :
    String.join (x :: xs) = x ++ String.join xs := by
  rw [show String.join (x :: xs) = xs.foldl (· ++ ·) ("" ++ x) from rfl,
    string_empty_append, string_join_foldl]

theorem natDigitsRev_lt (b : Nat) (hb : 2 ≤ b) :
    ∀ n, ∀ d ∈ natDigitsRev b n, d < b := by
  intro n
  induction n using Nat.strong_induction_on with
  | _ n ih =>
    intro d hd
    rw [natDigitsRev_unfold] at hd
    by_cases hn : n = 0 ∨ b < 2
    · rw [if_pos hn] at hd
      exact absurd hd (List.not_mem_nil d)
    · rw [if_neg hn] at hd
      push_neg at hn
      rcases List.mem_cons.mp hd with h | h
      · rw [h]
        exact Nat.mod_lt n (by omega)
      · exact ih (n / b) (Nat.div_lt_self (Nat.pos_of_ne_zero hn.1) hn.2) d h

theorem digitChar_toUpper : ∀ d < 16, (digitChar false d).toUpper = digitChar true d := by
  decide

theorem natToBase_upper (n : Nat) :
    natToBase 16 true n = (natToBase 16 false n).map Char.toUpper := by
  unfold natToBase
  by_cases hn : n = 0
  · rw [if_pos hn, if_pos hn]
    decide
  · rw [if_neg hn, if_neg hn, List.map_map]
    apply List.map_congr_left
    intro d hd
    have hd16 : d < 16 := natDigitsRev_lt 16 (by omega) n d (List.mem_reverse.mp hd)
    exact (digitChar_toUpper d hd16).symm

theorem format_location_space (file : String) (line : Int) (m : String) :
    format_location file line ++ " " ++ m =
      "[" ++ file ++ ":" ++ toString line ++ "] " ++ m := by
  unfold format_location
  rw [string_append_assoc ("[" ++ file ++ ":" ++ toString line) "]" " ",
    show ("]" ++ " " : String) = "] " from rfl]

theorem build_message_flatten (a : String) (args : List String) :
    ((a :: args).map (fun x => x.data ++ [' '])).flatten =
      (joinWithSpaces (a :: args)).data ++ [' '] := by
  induction args generalizing a with
  | nil => simp [joinWithSpaces]
  | cons b rest ih =>
    show (a.data ++ [' ']) ++ ((b :: rest).map (fun x => x.data ++ [' '])).flatten = _
    rw [ih b]
    show _ = (a ++ " " ++ joinWithSpaces (b :: rest)).data ++ [' ']
    simp [String.data_append, List.append_assoc]

theorem build_message_eq_joinWithSpaces (args : List String) :
    build_message args = joinWithSpaces args := by
  cases args with
  | nil => rfl
  | cons a rest =>
    have h : build_message (a :: rest) =
        if (((a :: rest).map (fun x => x.data ++ [' '])).flatten).getLast? = some ' '
        then String.mk (((a :: rest).map (fun x => x.data ++ [' '])).flatten).dropLast
        else String.mk (((a :: rest).map (fun x => x.data ++ [' '])).flatten) := rfl
    rw [h, build_message_flatten a rest, List.getLast?_concat]
    simp only [if_pos rfl]
    rw [List.dropLast_concat]
    exact string_mk_data (joinWithSpaces (a :: rest))

example : bin_format 32 5 0 true 0 = "0b101" := by decide
example : bin_format 32 175 0 true 4 = "0b1010 1111" := by decide
example : bin_format 32 255 0 true 3 = "0b111 111 11" := by decide
example : bin_format_spec_lsb 32 255 0 true 3 = "0b11 111 111" := by decide
example : bin_format_spec_lsb 32 175 0 true 4 = "0b1010 1111" := by decide
example : hex_format 32 255 0 true false = "0xff" := by decide
example : hex_format 32 255 0 true true = "0xFF" := by decide
example : hex_format 32 0 0 true false = "0" := by decide
example : hex_format 32 0 4 true false = "0x0000" := by decide
example : hex_format 8 (-1) 0 true false = "0xff" := by decide
example : oct_format 32 8 0 true = "010" := by decide
example : oct_format 32 8 0 false = "10" := by decide
example : build_message [] = "" := by decide
example : build_message ["a", "b"] = "a b" := by decide
example : build_message ["a "] = "a " := by decide
example :
    container_format ["x", "y", "z"] 1000000 100 "[" "]" ", " "..." false false "  " = "[]" := by
  decide
example :
    container_format ["1", "2", "3", "4", "5"] 3 0 "[" "]" ", " "..." false false "  " =
      "[1, 2, 3, ...]" := by
  decide
example :
    container_format ["a"] 0 0 "[" "]" ", " "..." false false "  " = "[...]" := by
  decide
example :
    container_format_spec ["a"] 0 0 "[" "]" ", " "..." = "[, ...]" := by
  decide
example :
    get_nested_trace (Exn.nested "outer" (Exn.leaf "inner")) 0 =
      "→ outer\n  → inner\n" := by
  decide
example : (enforce_eq 5 6 "x == 6" "test.cc" 1).failed = true := by decide
example :
    ((enforcer_dtor (enforce_eq 5 6 "x == 6" "test.cc" 1) none).2.map Exn.what) =
      some "[test.cc:1] Enforcement failed:  x == 6  -  Values must be equal" := by
  decide

theorem indentOf_append_two (lvl : Nat) : indentOf lvl ++ "  " = indentOf (lvl + 1) := by
  apply String.ext
  rw [String.data_append]
  show List.replicate (lvl * 2) ' ' ++ ("  " : String).data =
    List.replicate ((lvl + 1) * 2) ' '
  rw [show ("  " : String).data = List.replicate 2 ' ' from rfl, ← List.replicate_add]
  congr 1
  omega

theorem unknown_placeholder_line (lvl : Nat) :
    indentOf lvl ++ "  → [unknown nested exception]\n" =
      indentOf (lvl + 1) ++ ("→ [unknown nested exception]" ++ "\n") := by
  rw [show ("  → [unknown nested exception]\n" : String) =
      "  " ++ ("→ [unknown nested exception]" ++ "\n") from by decide]
  rw [← string_append_assoc (indentOf lvl) "  " _, indentOf_append_two]

/-! ## Claim theorems -/

/-- Claim C8: the message builder renders each argument, appends each
rendering and a space to the stream (so the accumulated stream always ends
in a space), strips exactly that one trailing space, and the net result is
the renderings joined with a single space between consecutive arguments;
zero arguments yield the empty string and `build_message("a","b") = "a b"`. -/
theorem build_message_single_space_join (args : List String) :
    build_message args = joinWithSpaces args ∧
      (args ≠ [] →
        (((args.map (fun x => x.data ++ [' '])).flatten).getLast? = some ' ' ∧
          build_message args =
            String.mk ((args.map (fun x => x.data ++ [' '])).flatten).dropLast)) ∧
      build_message [] = "" ∧
      build_message ["a", "b"] = "a b" := by
  refine ⟨build_message_eq_joinWithSpaces args, ?_, rfl, by decide⟩
  intro hargs
  cases args with
  | nil => exact absurd rfl hargs
  | cons a rest =>
    constructor
    · rw [build_message_flatten a rest]
      exact List.getLast?_concat _
    · have h : build_message (a :: rest) =
          if (((a :: rest).map (fun x => x.data ++ [' '])).flatten).getLast? = some ' '
          then String.mk (((a :: rest).map (fun x => x.data ++ [' '])).flatten).dropLast
          else String.mk (((a :: rest).map (fun x => x.data ++ [' '])).flatten) := rfl

      rw [h, if_pos]
      rw [build_message_flatten a rest]
      exact List.getLast?_concat _

/-- Claim C8 witness: the theorem applied to the concrete argument list
`["a", "b"]`, whose accumulated stream "a b " ends in a space. -/
theorem build_message_single_space_join_witness :
    build_message ["a", "b"] = joinWithSpaces ["a", "b"] ∧
      ((["a", "b"].map (fun x : String => x.data ++ [' '])).flatten).getLast? = some ' ' :=
  ⟨(build_message_single_space_join ["a", "b"]).1,
    ((build_message_single_space_join ["a", "b"]).2.1 (by decide)).1⟩

/-- Claim C4: raising a failure with a location builds its text as exactly
the prefix `"[<file>:<line>] "` followed by the built message, and its cause
is the failure currently being handled exactly when the raise occurs inside
a handler (`cur = some _`), and empty otherwise. -/
theorem throw_exception_location_prefix_and_cause (file : String) (line : Int)
    (args : List String) (cur : Option Exn) :
    (throw_exception file line args cur).what =
        "[" ++ file ++ ":" ++ toString line ++ "] " ++ build_message args ∧
      (throw_exception file line args cur).cause = cur := by
  constructor
  · have h : (throw_exception file line args cur).what =
        format_location file line ++ " " ++ build_message args := by
      cases cur <;> rfl
    rw [h, format_location_space]
  · cases cur <;> rfl

/-- Claim C1 counterexample: after an explicit message call on a failed
enforcer has raised and flipped `handled` to true, a second message call on
the very same instance raises again — `operator()` tests only `failed_`, so
the instance does not stop raising once `handled` is true. -/
theorem enforcer_second_message_call_raises :
    ((enforcer_call (enforce_eq 5 6 "x == 6" "test.cc" 7) ["first"] none).1.handled = true) ∧
      ((enforcer_call (enforcer_call (enforce_eq 5 6 "x == 6" "test.cc" 7) ["first"] none).1
          ["second"] none).2.isSome = true) := by
  decide

/-- Claim C1 (amended): a raise flips `handled` to true, and once `handled`
is true no further raise occurs at destruction; but an explicit message call
raises whenever the predicate failed, regardless of `handled`. -/
theorem enforcer_handled_amended {T : Type} (e : enforcer T) (args : List String)
    (cur : Option Exn) :
    ((enforcer_call e args cur).2.isSome = true ↔ e.failed = true) ∧
      ((enforcer_call e args cur).2.isSome = true →
        (enforcer_call e args cur).1.handled = true) ∧
      ((enforcer_dtor e cur).2.isSome = true →
        (enforcer_dtor e cur).1.handled = true) ∧
      (e.handled = true → (enforcer_dtor e cur).2 = none) := by
  cases hf : e.failed <;> cases hh : e.handled <;>
    simp [enforcer_call, enforcer_dtor, hf, hh]

/-- Claim C1 (amended) witness: at a concrete failed enforcer the message
call marks it handled, and a handled instance does not raise at
destruction. -/
theorem enforcer_handled_amended_witness :
    ((enforcer_call (enforce_eq 5 6 "x == 6" "test.cc" 7) ["m"] none).1.handled = true) ∧
      ((enforcer_dtor { enforce_eq 5 6 "x == 6" "test.cc" 7 with handled := true } none).2 =
        none) :=
  ⟨(enforcer_handled_amended (enforce_eq 5 6 "x == 6" "test.cc" 7) ["m"] none).2.1 (by decide),
    (enforcer_handled_amended { enforce_eq 5 6 "x == 6" "test.cc" 7 with handled := true }
      ["m"] none).2.2.2 (by decide)⟩

/-- Claim C5: destroying a failed, still unhandled enforcer marks it handled
and invokes the raiser with the default message built from the expression
text and the predicate description, location-prefixed; the expression text
occurs verbatim inside the raised text (here flanked by the explicit
surrounding pieces), so a predicate failure is never silently skipped. -/
theorem enforcer_dtor_raises_default_message {T : Type} (e : enforcer T)
    (cur : Option Exn) (hf : e.failed = true) (hh : e.handled = false) :
    (enforcer_dtor e cur).1.handled = true ∧
      (enforcer_dtor e cur).2.map Exn.what =
        some ((format_location e.file e.line ++ " " ++ ("Enforcement failed: " ++ " ")) ++
          (e.expr ++ (" " ++ (" - " ++ (" " ++ e.description))))) := by
  have hcond : (e.failed = true) ∧ ¬(e.handled = true) := ⟨hf, by rw [hh]; decide⟩
  unfold enforcer_dtor
  rw [if_pos hcond]
  constructor
  · rfl
  · show some ((throw_exception e.file e.line
        ["Enforcement failed: ", e.expr, " - ", e.description] cur).what) = _
    have hwhat : (throw_exception e.file e.line
        ["Enforcement failed: ", e.expr, " - ", e.description] cur).what =
        format_location e.file e.line ++ " " ++
          build_message ["Enforcement failed: ", e.expr, " - ", e.description] := by
      cases cur <;> rfl
    rw [hwhat, build_message_eq_joinWithSpaces]
    simp only [joinWithSpaces]
    congr 1
    apply String.ext
    simp [String.data_append, List.append_assoc]

/-- Claim C5 witness: the theorem applied to the enforcer produced by
`ENFORCE_EQ(x, 6)` at `x = 5`, whose expression text is "x == 6": the
destructor raise carries that text inside the default message. -/
theorem enforcer_dtor_raises_default_message_witness :
    (enforcer_dtor (enforce_eq 5 6 "x == 6" "test.cc" 42) none).1.handled = true ∧
      (enforcer_dtor (enforce_eq 5 6 "x == 6" "test.cc" 42) none).2.map Exn.what =
        some ((format_location "test.cc" 42 ++ " " ++ ("Enforcement failed: " ++ " ")) ++
          ("x == 6" ++ (" " ++ (" - " ++ (" " ++ "Values must be equal"))))) :=
  enforcer_dtor_raises_default_message (enforce_eq 5 6 "x == 6" "test.cc" 42) none
    (by decide) (by decide)

/-- Claim C3 counterexample: a failure whose nested cause has no recognized
representation renders the placeholder text "[unknown nested exception]",
not "[unknown nested cause]" as claimed; at this concrete failure the
actual trace differs from the claimed rendering. -/
theorem get_nested_trace_placeholder_counterexample :
    get_nested_trace (Exn.nestedUnknown "outer") 0 =
        "→ outer\n  → [unknown nested exception]\n" ∧
      get_nested_trace (Exn.nestedUnknown "outer") 0 ≠
        "→ outer\n  → [unknown nested cause]\n" := by
  decide

/-- Claim C3 (amended): flattening renders "<indent>→ <message>\n" for the
given failure and then the flattened cause at one additional 2-space indent
level, outermost (most recently raised) failure first; a failure whose
nested cause has no recognized representation renders the placeholder line
"→ [unknown nested exception]" at one additional indent level. -/
theorem get_nested_trace_characterization (e : Exn) (lvl : Nat) :
    get_nested_trace e lvl = concatLines (flatten_lines e lvl) ∧
      (∀ w c, get_nested_trace (Exn.nested w c) lvl =
        indentOf lvl ++ "→ " ++ w ++ "\n" ++ get_nested_trace c (lvl + 1)) ∧
      (∀ w, get_nested_trace (Exn.nestedUnknown w) lvl =
        indentOf lvl ++ "→ " ++ w ++ "\n" ++
          (indentOf (lvl + 1) ++ ("→ [unknown nested exception]" ++ "\n"))) := by
  refine ⟨?_, fun w c => rfl, fun w => ?_⟩
  · induction e generalizing lvl with
    | leaf w =>
      show indentOf lvl ++ "→ " ++ w ++ "\n" =
        (indentOf lvl ++ "→ " ++ w) ++ "\n" ++ concatLines []
      apply String.ext
      simp [concatLines, String.data_append, List.append_assoc]
    | nested w c ih =>
      show indentOf lvl ++ "→ " ++ w ++ "\n" ++ get_nested_trace c (lvl + 1) =
        (indentOf lvl ++ "→ " ++ w) ++ "\n" ++ concatLines (flatten_lines c (lvl + 1))
      rw [ih (lvl + 1)]
    | nestedUnknown w =>
      show indentOf lvl ++ "→ " ++ w ++ "\n" ++ indentOf lvl ++
          "  → [unknown nested exception]\n" =
        (indentOf lvl ++ "→ " ++ w) ++ "\n" ++
          concatLines [indentOf (lvl + 1) ++ "→ [unknown nested exception]"]
      rw [string_append_assoc _ (indentOf lvl) _, unknown_placeholder_line lvl]
      apply String.ext
      simp [concatLines, String.data_append, List.append_assoc]
  · show indentOf lvl ++ "→ " ++ w ++ "\n" ++ indentOf lvl ++
        "  → [unknown nested exception]\n" = _
    rw [string_append_assoc _ (indentOf lvl) _, unknown_placeholder_line lvl]

/-- Claim C9: the Oct formatter emits a literal `0` prefix exactly when
`show_base` is set and the value is nonzero (otherwise the digits are only
zero-padded to the width), and with both `show_base` and a width the `0`
consumes one column of the requested width: the digits are padded only to
`width - 1` and the total length is `width` whenever it suffices;
`render(Oct(8)) = "010"` and `render(Oct(8, 0, show_base=false)) = "10"`. -/
theorem oct_format_claim (bits : Nat) (v : Int) (w : Nat) :
    (v ≠ 0 → oct_format bits v w true =
        String.mk ('0' :: padLeftL (w - 1) '0' (natToBase 8 false (toUnsigned bits v)))) ∧
      (oct_format bits v w false =
        String.mk (padLeftL w '0' (natToBase 8 false (toUnsigned bits v)))) ∧
      (v = 0 → oct_format bits v w true =
        String.mk (padLeftL w '0' (natToBase 8 false (toUnsigned bits v)))) ∧
      (v ≠ 0 → (natToBase 8 false (toUnsigned bits v)).length + 1 ≤ w →
        (oct_format bits v w true).length = w) ∧
      oct_format 32 8 0 true = "010" ∧
      oct_format 32 8 0 false = "10" := by
  have h1 : v ≠ 0 → oct_format bits v w true =
      String.mk ('0' :: padLeftL (w - 1) '0' (natToBase 8 false (toUnsigned bits v))) := by
    intro hv
    unfold oct_format
    simp only []
    by_cases hw : 0 < w
    · rw [if_pos ⟨hw, trivial, hv⟩]
    · have hw0 : w = 0 := by omega
      subst hw0
      rw [if_neg (by simp), if_neg (by simp), if_pos ⟨trivial, hv⟩]
      rw [show (0 : Nat) - 1 = 0 from rfl, padLeftL_eq]
      simp
  refine ⟨h1, ?_, ?_, ?_, by decide, by decide⟩
  · unfold oct_format
    simp only []
    rw [if_neg (by simp)]
    by_cases hw : 0 < w
    · rw [if_pos hw]
    · have hw0 : w = 0 := by omega
      subst hw0
      rw [if_neg (by omega), if_neg (by simp), padLeftL_eq]
      simp
  · intro hv
    unfold oct_format
    simp only []
    rw [if_neg (by simp [hv])]
    by_cases hw : 0 < w
    · rw [if_pos hw]
    · have hw0 : w = 0 := by omega
      subst hw0
      rw [if_neg (by omega), if_neg (by simp [hv]), padLeftL_eq]
      simp
  · intro hv hlen
    rw [h1 hv]
    show ('0' :: padLeftL (w - 1) '0' (natToBase 8 false (toUnsigned bits v))).length = w
    rw [List.length_cons, padLeftL_length]
    omega

/-- Claim C9 witness: `Oct(8, width = 4)`: the prefix is emitted, the digits
"10" are padded only to three columns, and the total width is the requested
four columns. -/
theorem oct_format_claim_witness :
    oct_format 32 8 4 true =
        String.mk ('0' :: padLeftL 3 '0' (natToBase 8 false (toUnsigned 32 8))) ∧
      (oct_format 32 8 4 true).length = 4 ∧
      oct_format 32 0 4 true = String.mk (padLeftL 4 '0' (natToBase 8 false (toUnsigned 32 0))) :=
  ⟨(oct_format_claim 32 8 4).1 (by decide),
    (oct_format_claim 32 8 4).2.2.2.1 (by decide) (by decide),
    (oct_format_claim 32 0 4).2.2.1 rfl⟩

theorem hex_signed_reinterpret (bits : Nat) (v : Int) (w : Nat) (sb uc : Bool)
    (hb : 0 < bits) (hlo : -(2 ^ (bits - 1) : Int) ≤ v) (hhi : v < 2 ^ (bits - 1)) :
    hex_format bits v w sb uc = hex_format bits (v % 2 ^ bits) w sb uc := by
  have hsplit : (2 : Int) ^ bits = 2 ^ (bits - 1) * 2 := by
    rw [← pow_succ]
    congr 1
    omega
  have hP : (0 : Int) < 2 ^ (bits - 1) := by positivity
  have hmod : v % 2 ^ bits % 2 ^ bits = v % 2 ^ bits :=
    Int.emod_emod_of_dvd v (dvd_refl _)
  have hzero : v = 0 ↔ v % 2 ^ bits = 0 := by
    constructor
    · intro h
      rw [h]
      simp
    · intro h
      rcases lt_trichotomy v 0 with hneg | hz | hpos
      · exfalso
        have h2 : (v + 2 ^ bits * 1) % 2 ^ bits = v % 2 ^ bits :=
          Int.add_mul_emod_self_left v (2 ^ bits) 1
        have h3 : (0 : Int) ≤ v + 2 ^ bits * 1 := by
          rw [hsplit]
          linarith
        have h4 : v + 2 ^ bits * 1 < 2 ^ bits := by linarith
        have h5 : v % 2 ^ bits = v + 2 ^ bits * 1 := by
          rw [← h2, Int.emod_eq_of_lt h3 h4]
        rw [h5] at h
        rw [hsplit] at h
        linarith
      · exact hz
      · exfalso
        have h5 : v % 2 ^ bits = v :=
          Int.emod_eq_of_lt (le_of_lt hpos) (by rw [hsplit]; linarith)
        rw [h5] at h
        linarith
  have ht : toUnsigned bits (v % 2 ^ bits) = toUnsigned bits v := by
    unfold toUnsigned
    rw [hmod]
  unfold hex_format
  rw [ht]
  simp only [ne_eq, hzero]

/-- Claim C6: the Hex formatter with `show_base` prints `0x` for a pointer
only when non-null (a null pointer prints the padded `nullptr` with no
prefix), and for a non-pointer unless value and width are both zero; signed
values are reinterpreted as unsigned (reduction modulo `2 ^ bits`) before
conversion; the width pads with `'0'` on the left of the digits and
`uppercase` maps every digit letter through `Char.toUpper`; and
`render(Hex(255)) = "0xff"`, `render(Hex(255,0,true,true)) = "0xFF"`,
`render(Hex(0)) = "0"`, `render(Hex(0, width=4)) = "0x0000"`. -/
theorem hex_format_claim (bits w : Nat) (v : Int) (uc : Bool) (addr : Nat) :
    (addr ≠ 0 → hex_format_ptr addr w true uc =
        String.mk (['0', 'x'] ++ padLeftL w '0' (natToBase 16 uc addr))) ∧
      (hex_format_ptr 0 w true uc = String.mk (padLeftL w '0' "nullptr".data)) ∧
      (v ≠ 0 ∨ 0 < w → hex_format bits v w true uc =
        String.mk (['0', 'x'] ++ padLeftL w '0' (natToBase 16 uc (toUnsigned bits v)))) ∧
      (v = 0 → w = 0 → hex_format bits v w true uc = "0") ∧
      (∀ sb : Bool, 0 < bits → -(2 ^ (bits - 1) : Int) ≤ v → v < 2 ^ (bits - 1) →
        hex_format bits v w sb uc = hex_format bits (v % 2 ^ bits) w sb uc) ∧
      (hex_format bits v w false uc =
        String.mk (List.replicate (w - (natToBase 16 uc (toUnsigned bits v)).length) '0' ++
          natToBase 16 uc (toUnsigned bits v))) ∧
      (natToBase 16 true (toUnsigned bits v) =
        (natToBase 16 false (toUnsigned bits v)).map Char.toUpper) ∧
      hex_format 32 255 0 true false = "0xff" ∧
      hex_format 32 255 0 true true = "0xFF" ∧
      hex_format 32 0 0 true false = "0" ∧
      hex_format 32 0 4 true false = "0x0000" := by
  refine ⟨?_, ?_, ?_, ?_, ?_, ?_, natToBase_upper (toUnsigned bits v),
    by decide, by decide, by decide, by decide⟩
  · intro haddr
    unfold hex_format_ptr
    rw [if_neg haddr, if_pos rfl]
  · unfold hex_format_ptr
    rw [if_pos rfl]
  · intro h
    unfold hex_format
    rw [if_pos ⟨rfl, h⟩]
  · intro hv hw
    subst hv
    subst hw
    unfold hex_format
    rw [if_neg (by simp)]
    have ht : toUnsigned bits 0 = 0 := by simp [toUnsigned]
    rw [ht]
    rw [show natToBase 16 uc 0 = ['0'] from by simp [natToBase], padLeftL_eq]
    simp
  · intro sb hb hlo hhi
    exact hex_signed_reinterpret bits v w sb uc hb hlo hhi
  · unfold hex_format
    rw [if_neg (by simp), padLeftL_eq]
    rfl

/-- Claim C6 witness: the theorem applied at concrete inputs — a non-null
and a null pointer, `Hex(255)`, `Hex(0)`, and the 8-bit signed value `-1`
whose unsigned reinterpretation is `255`. -/
theorem hex_format_claim_witness :
    hex_format_ptr 255 0 true false =
        String.mk (['0', 'x'] ++ padLeftL 0 '0' (natToBase 16 false 255)) ∧
      hex_format_ptr 0 8 true false = String.mk (padLeftL 8 '0' "nullptr".data) ∧
      hex_format 32 255 0 true false =
        String.mk (['0', 'x'] ++ padLeftL 0 '0' (natToBase 16 false (toUnsigned 32 255))) ∧
      hex_format 32 0 0 true false = "0" ∧
      hex_format 8 (-1) 0 true false = hex_format 8 ((-1) % 2 ^ 8) 0 true false :=
  ⟨(hex_format_claim 32 0 255 false 255).1 (by decide),
    (hex_format_claim 32 8 255 false 0).2.1,
    (hex_format_claim 32 0 255 false 0).2.2.1 (Or.inl (by decide)),
    (hex_format_claim 32 0 0 false 0).2.2.2.1 rfl rfl,
    (hex_format_claim 8 0 (-1) false 0).2.2.2.2.1 true (by decide) (by decide) (by decide)⟩

theorem bin_format_eq (bits : Nat) (v : Int) (w : Nat) (sb : Bool) (g : Nat) :
    bin_format bits v w sb g =
      String.mk ((if sb then ['0', 'b'] else []) ++
        groupBits (toUnsigned bits v) (bin_bits_shown bits v w) g) := rfl

theorem bitChar_mod (u n i : Nat) (h : i < n) : bitChar (u % 2 ^ n) i = bitChar u i := by
  have hsplit : (2 : Nat) ^ n = 2 ^ i * 2 ^ (n - i) := by
    rw [← pow_add]
    congr 1
    omega
  have hdvd : (2 : Nat) ∣ 2 ^ (n - i) := dvd_pow_self 2 (by omega)
  have harith : u % 2 ^ n / 2 ^ i % 2 = u / 2 ^ i % 2 := by
    rw [hsplit, Nat.mod_mul_right_div_self, Nat.mod_mod_of_dvd _ hdvd]
  unfold bitChar
  rw [harith]

theorem groupBitsAux_mod (u g n : Nat) :
    ∀ (is : List Nat) (k : Nat), (∀ i ∈ is, i < n) →
      groupBitsAux (u % 2 ^ n) g k is = groupBitsAux u g k is := by
  intro is
  induction is with
  | nil => intro k _; rfl
  | cons i rest ih =>
    intro k h
    show (if _ then [' '] else []) ++ bitChar (u % 2 ^ n) i :: groupBitsAux (u % 2 ^ n) g (k + 1) rest = _
    rw [bitChar_mod u n i (h i (List.mem_cons_self i rest)),
      ih (k + 1) (fun j hj => h j (List.mem_cons_of_mem i hj))]
    rfl

theorem groupBits_mod (u n g : Nat) : groupBits (u % 2 ^ n) n g = groupBits u n g := by
  unfold groupBits
  apply groupBitsAux_mod
  intro i hi
  rw [List.mem_reverse] at hi
  exact List.mem_range.mp hi

theorem groupBitsAux_length_nogroup (u : Nat) :
    ∀ (is : List Nat) (k : Nat), (groupBitsAux u 0 k is).length = is.length := by
  intro is
  induction is with
  | nil => intro k; rfl
  | cons i rest ih =>
    intro k
    show ((if 0 < k ∧ 0 < 0 ∧ k % 0 = 0 then [' '] else []) ++
      bitChar u i :: groupBitsAux u 0 (k + 1) rest).length = rest.length + 1
    rw [if_neg (by omega)]
    simp [ih (k + 1)]

/-- Claim C10: with a nonzero width the Bin formatter renders exactly `width`
bits taken from the least-significant end of the value — the output equals
that of the value reduced modulo `2 ^ width`, so high-order bits are
silently dropped rather than the field widened — and without grouping the
bit field is exactly `width` characters; `0b10101111` at width 4 renders
"1111". -/
theorem bin_format_truncates_to_width (bits w : Nat) (v : Int) (sb : Bool) (g : Nat)
    (hw : 0 < w) :
    bin_format bits v w sb g =
        String.mk ((if sb then ['0', 'b'] else []) ++
          groupBits (toUnsigned bits v % 2 ^ w) w g) ∧
      (bin_format bits v w false 0).length = w ∧
      bin_format 32 175 4 false 0 = "1111" := by
  have hshown : bin_bits_shown bits v w = w := by
    unfold bin_bits_shown
    rw [if_pos hw]
  refine ⟨?_, ?_, by decide⟩
  · rw [bin_format_eq, hshown, groupBits_mod]
  · rw [bin_format_eq, hshown]
    show ((if false then ['0', 'b'] else []) ++ groupBits (toUnsigned bits v) w 0).length = w
    rw [if_neg (by simp), List.nil_append]
    unfold groupBits
    rw [groupBitsAux_length_nogroup]
    simp

/-- Claim C10 witness: the theorem at `0b10101111` with width 4 — only the
low four bits are shown and the field is four characters wide. -/
theorem bin_format_truncates_to_width_witness :
    bin_format 32 175 4 true 0 =
        String.mk ((if true then ['0', 'b'] else []) ++
          groupBits (toUnsigned 32 175 % 2 ^ 4) 4 0) ∧
      (bin_format 32 175 4 false 0).length = 4 :=
  ⟨(bin_format_truncates_to_width 32 4 175 true 0 (by decide)).1,
    (bin_format_truncates_to_width 32 4 175 false 0 (by decide)).2.1⟩

theorem groupBitsAux_eq_insertSpaces (u g : Nat) :
    ∀ (is : List Nat) (k : Nat),
      groupBitsAux u g k is = insertSpaces g k (is.map (bitChar u)) := by
  intro is
  induction is with
  | nil => intro k; rfl
  | cons i rest ih =>
    intro k
    show (if _ then [' '] else []) ++ bitChar u i :: groupBitsAux u g (k + 1) rest =
      insertSpaces g k (bitChar u i :: rest.map (bitChar u))
    rw [ih (k + 1)]
    rfl

theorem groupBitsAux_nogroup (u : Nat) :
    ∀ (is : List Nat) (k : Nat), groupBitsAux u 0 k is = is.map (bitChar u) := by
  intro is
  induction is with
  | nil => intro k; rfl
  | cons i rest ih =>
    intro k
    show (if 0 < k ∧ 0 < 0 ∧ k % 0 = 0 then [' '] else []) ++
      bitChar u i :: groupBitsAux u 0 (k + 1) rest = bitChar u i :: rest.map (bitChar u)
    rw [if_neg (by omega), ih (k + 1)]
    rfl

theorem insertSpaces_seg (g : Nat) (hg : 0 < g) :
    ∀ (r : Nat) (k : Nat) (l : List Char), 0 < r → r + k % g = g →
      insertSpaces g k l =
        (if 0 < k ∧ k % g = 0 ∧ l ≠ [] then [' '] else []) ++
          l.take r ++ insertSpaces g (k + min r l.length) (l.drop r) := by
  intro r
  induction r with
  | zero =>
    intro k l hr
    exact absurd hr (lt_irrefl 0)
  | succ s ih =>
    intro k l hr hkg
    have hmlt : k % g < g := Nat.mod_lt k hg
    cases l with
    | nil => simp [insertSpaces]
    | cons c rest =>
      have hlead : (if 0 < k ∧ 0 < g ∧ k % g = 0 then ([' '] : List Char) else []) =
          (if 0 < k ∧ k % g = 0 ∧ (c :: rest) ≠ [] then [' '] else []) := by
        by_cases h0 : 0 < k ∧ k % g = 0
        · rw [if_pos ⟨h0.1, hg, h0.2⟩, if_pos ⟨h0.1, h0.2, List.cons_ne_nil c rest⟩]
        · rw [if_neg (fun hcon => h0 ⟨hcon.1, hcon.2.2⟩),
            if_neg (fun hcon => h0 ⟨hcon.1, hcon.2.1⟩)]
      show (if 0 < k ∧ 0 < g ∧ k % g = 0 then [' '] else []) ++
        c :: insertSpaces g (k + 1) rest = _
      by_cases hs : s = 0
      · subst hs
        rw [hlead, show min 1 (c :: rest).length = 1 from by simp,
          List.take_succ_cons, List.take_zero, List.drop_succ_cons, List.drop_zero]
        simp [List.append_assoc]
      · have hlt : k % g + 1 < g := by omega
        have hstep : (k + 1) % g = k % g + 1 := by
          rw [Nat.add_mod, Nat.mod_eq_of_lt (show 1 < g from by omega)]
          exact Nat.mod_eq_of_lt hlt
        rw [hlead, ih (k + 1) rest (by omega) (by rw [hstep]; omega),
          if_neg (show ¬(0 < k + 1 ∧ (k + 1) % g = 0 ∧ rest ≠ []) from by
            intro hcon
            obtain ⟨h1, h2, h3⟩ := hcon
            rw [hstep] at h2
            omega),
          List.take_succ_cons, List.drop_succ_cons,
          show k + min (s + 1) (c :: rest).length = k + 1 + min s rest.length from by
            simp only [List.length_cons]
            omega]
        simp [List.append_assoc]

theorem insertSpaces_eq_chunks (g : Nat) (hg : 0 < g) :
    ∀ (l : List Char) (k : Nat), k % g = 0 →
      insertSpaces g k l =
        (if 0 < k ∧ l ≠ [] then [' '] else []) ++ joinSepL [' '] (chunksLeft g l) := by
  suffices H : ∀ (m : Nat) (l : List Char) (k : Nat), l.length ≤ m → k % g = 0 →
      insertSpaces g k l =
        (if 0 < k ∧ l ≠ [] then [' '] else []) ++ joinSepL [' '] (chunksLeft g l) from
    fun l k hk => H l.length l k (le_refl _) hk
  intro m
  induction m with
  | zero =>
    intro l k hl hk
    have hnil : l = [] := List.length_eq_zero.mp (Nat.le_zero.mp hl)
    subst hnil
    simp [insertSpaces, chunksLeft_nil, joinSepL]
  | succ m ih =>
    intro l k hl hk
    cases l with
    | nil => simp [insertSpaces, chunksLeft_nil, joinSepL]
    | cons c rest =>
      rw [insertSpaces_seg g hg g k (c :: rest) hg (by omega)]
      have hL : (if 0 < k ∧ k % g = 0 ∧ (c :: rest) ≠ [] then ([' '] : List Char) else []) =
          (if 0 < k ∧ (c :: rest) ≠ [] then [' '] else []) := by
        by_cases h0 : 0 < k
        · rw [if_pos ⟨h0, hk, List.cons_ne_nil c rest⟩,
            if_pos ⟨h0, List.cons_ne_nil c rest⟩]
        · rw [if_neg (fun hcon => h0 hcon.1), if_neg (fun hcon => h0 hcon.1)]
      rw [hL]
      by_cases hlen : (c :: rest).length ≤ g
      · have hdrop : (c :: rest).drop g = [] := List.drop_eq_nil_of_le hlen
        have htake : (c :: rest).take g = c :: rest := List.take_of_length_le hlen
        rw [chunksLeft_cons, if_neg (by omega : ¬g = 0), hdrop, chunksLeft_nil, htake]
        show _ ++ (c :: rest) ++ insertSpaces g (k + min g (c :: rest).length) [] =
          _ ++ joinSepL [' '] [c :: rest]
        show _ ++ (c :: rest) ++ [] = _ ++ (c :: rest)
        simp
      · push_neg at hlen
        have hdropne : (c :: rest).drop g ≠ [] := by
          intro hcon
          have hll := List.drop_eq_nil_iff.mp hcon
          omega
        have hmin : min g (c :: rest).length = g := by omega
        have hk' : (k + g) % g = 0 := by
          rw [Nat.add_mod, hk, Nat.mod_self]
          simp
        have hdlen : ((c :: rest).drop g).length ≤ m := by
          have h1 := List.length_drop g (c :: rest)
          simp only [List.length_cons] at h1 hl
          omega
        rw [hmin, ih ((c :: rest).drop g) (k + g) hdlen hk',
          if_pos (show 0 < k + g ∧ (c :: rest).drop g ≠ [] from ⟨by omega, hdropne⟩)]
        rw [chunksLeft_cons, if_neg (by omega : ¬g = 0)]
        cases hch : chunksLeft g ((c :: rest).drop g) with
        | nil =>
          exfalso
          cases hd : (c :: rest).drop g with
          | nil => exact hdropne hd
          | cons d ds =>
            rw [hd, chunksLeft_cons, if_neg (by omega : ¬g = 0)] at hch
            exact List.noConfusion hch
        | cons ch chs =>
          show _ ++ (c :: rest).take g ++ ([' '] ++ joinSepL [' '] (ch :: chs)) =
            _ ++ ((c :: rest).take g ++ [' '] ++ joinSepL [' '] (ch :: chs))
          simp [List.append_assoc]

theorem countBits_bounds : ∀ u : Nat, 0 < u →
    2 ^ (countBits u - 1) ≤ u ∧ u < 2 ^ countBits u := by
  intro u
  induction u using Nat.strong_induction_on with
  | _ u ih =>
    intro hu
    rw [countBits_unfold, if_neg (by omega)]
    by_cases h1 : u / 2 = 0
    · have hu1 : u = 1 := by omega
      subst hu1
      have h0 : countBits 0 = 0 := by
        rw [countBits_unfold]
        simp
      rw [show (1 : Nat) / 2 = 0 from rfl, h0]
      decide
    · have hdiv : u / 2 < u := Nat.div_lt_self hu (by omega)
      obtain ⟨hle, hlt⟩ := ih (u / 2) hdiv (Nat.pos_of_ne_zero h1)
      have hc1 : 1 ≤ countBits (u / 2) := by
        by_contra hcon
        push_neg at hcon
        have hc0 : countBits (u / 2) = 0 := by omega
        rw [hc0, pow_zero] at hlt
        omega
      constructor
      · have h2 : 2 ^ (countBits (u / 2) - 1) * 2 ≤ u :=
          (Nat.le_div_iff_mul_le (by omega)).mp hle
        calc 2 ^ (countBits (u / 2) + 1 - 1) = 2 ^ (countBits (u / 2) - 1) * 2 := by
              rw [← pow_succ]
              congr 1
              omega
          _ ≤ u := h2
      · calc u < 2 ^ countBits (u / 2) * 2 := (Nat.div_lt_iff_lt_mul (by omega)).mp hlt
          _ = 2 ^ (countBits (u / 2) + 1) := (pow_succ 2 (countBits (u / 2))).symm

/-- Claim C2 counterexample: the source groups bits counting from the
most-significant end of the displayed field, not the least-significant end:
on the five-bit value `0b10101` with group size 4 the code renders
"0b1010 1" while grouping from the least-significant end would render
"0b1 0101". -/
theorem bin_format_group_msb_counterexample :
    bin_format 32 21 0 true 4 = "0b1010 1" ∧
      bin_format_spec_lsb 32 21 0 true 4 = "0b1 0101" ∧
      bin_format 32 21 0 true 4 ≠ bin_format_spec_lsb 32 21 0 true 4 := by
  decide

/-- Claim C2 (amended): the Bin formatter emits `0b` when `show_base`, shows
`width` bits when `width` is nonzero and otherwise the significant bits of
the value (`2^(n-1) ≤ u < 2^n` bits shown, minimum 1 bit for zero), and
groups the shown bits from the MOST-significant end in chunks of
`group_size` separated by a single space (the last, least-significant chunk
may be shorter); `group_size = 0` disables grouping;
`render(Bin(5)) = "0b101"` and `render(Bin(0b10101111, 0, true, 4)) =
"0b1010 1111"`. -/
theorem bin_format_grouping (bits : Nat) (v : Int) (w g : Nat) (sb : Bool) :
    (bin_format bits v w sb g =
        String.mk ((if sb then ['0', 'b'] else []) ++
          insertSpaces g 0 (((List.range (bin_bits_shown bits v w)).reverse).map
            (bitChar (toUnsigned bits v))))) ∧
      (0 < g → bin_format bits v w sb g =
        String.mk ((if sb then ['0', 'b'] else []) ++
          joinSepL [' '] (chunksLeft g (((List.range (bin_bits_shown bits v w)).reverse).map
            (bitChar (toUnsigned bits v)))))) ∧
      (g = 0 → bin_format bits v w sb g =
        String.mk ((if sb then ['0', 'b'] else []) ++
          ((List.range (bin_bits_shown bits v w)).reverse).map
            (bitChar (toUnsigned bits v)))) ∧
      (0 < w → bin_bits_shown bits v w = w) ∧
      (w = 0 → toUnsigned bits v ≠ 0 →
        2 ^ (bin_bits_shown bits v w - 1) ≤ toUnsigned bits v ∧
          toUnsigned bits v < 2 ^ bin_bits_shown bits v w) ∧
      (w = 0 → toUnsigned bits v = 0 → bin_bits_shown bits v w = 1) ∧
      bin_format 32 5 0 true 0 = "0b101" ∧
      bin_format 32 175 0 true 4 = "0b1010 1111" := by
  refine ⟨?_, ?_, ?_, ?_, ?_, ?_, by decide, by decide⟩
  · rw [bin_format_eq]
    unfold groupBits
    rw [groupBitsAux_eq_insertSpaces]
  · intro hg
    rw [bin_format_eq]
    unfold groupBits
    rw [groupBitsAux_eq_insertSpaces, insertSpaces_eq_chunks g hg _ 0 (by simp)]
    simp
  · intro hg
    subst hg
    rw [bin_format_eq]
    unfold groupBits
    rw [groupBitsAux_nogroup]
  · intro hw
    unfold bin_bits_shown
    rw [if_pos hw]
  · intro hw hu
    have hshown : bin_bits_shown bits v w = countBits (toUnsigned bits v) := by
      unfold bin_bits_shown
      rw [if_neg (by omega), if_neg hu]
    rw [hshown]
    exact countBits_bounds (toUnsigned bits v) (Nat.pos_of_ne_zero hu)
  · intro hw hu
    unfold bin_bits_shown
    rw [if_neg (by omega), if_pos hu]

/-- Claim C2 (amended) witness: the theorem at `0b10101111` with group 4 —
chunked from the most-significant end — and at `Bin(5)` with no grouping;
the bit counts at width 0 come from the significant-bit bounds. -/
theorem bin_format_grouping_witness :
    bin_format 32 175 0 true 4 =
        String.mk (['0', 'b'] ++
          joinSepL [' '] (chunksLeft 4 (((List.range (bin_bits_shown 32 175 0)).reverse).map
            (bitChar (toUnsigned 32 175))))) ∧
      bin_bits_shown 32 175 4 = 4 ∧
      (2 ^ (bin_bits_shown 32 175 0 - 1) ≤ toUnsigned 32 175 ∧
        toUnsigned 32 175 < 2 ^ bin_bits_shown 32 175 0) ∧
      bin_bits_shown 32 0 0 = 1 :=
  ⟨(bin_format_grouping 32 175 0 4 true).2.1 (by decide),
    (bin_format_grouping 32 175 4 4 true).2.2.2.1 (by decide),
    (bin_format_grouping 32 175 0 4 true).2.2.2.2.1 rfl (by decide),
    (bin_format_grouping 32 0 0 4 true).2.2.2.2.2.1 rfl (by decide)⟩

theorem enumFrom_map_delim (d : String) (si : Nat) :
    ∀ (l : List String) (k : Nat), si < k →
      (List.enumFrom k l).map (fun p => (if si < p.1 then d else "") ++ p.2) =
        l.map (fun s => d ++ s) := by
  intro l
  induction l with
  | nil => intro k _; rfl
  | cons a rest ih =>
    intro k hk
    show ((if si < k then d else "") ++ a) :: _ = (d ++ a) :: _
    rw [if_pos hk, ih (k + 1) (by omega)]

theorem join_map_delim (d : String) :
    ∀ (l : List String) (a : String),
      a ++ String.join (l.map (fun s => d ++ s)) = joinSepS d (a :: l) := by
  intro l
  induction l with
  | nil =>
    intro a
    exact string_append_empty a
  | cons b rest ih =>
    intro a
    show a ++ String.join ((d ++ b) :: rest.map (fun s => d ++ s)) =
      joinSepS d (a :: b :: rest)
    rw [string_join_cons]
    show a ++ ((d ++ b) ++ String.join (rest.map (fun s => d ++ s))) =
      a ++ d ++ joinSepS d (b :: rest)
    rw [← ih b]
    apply String.ext
    simp [String.data_append, List.append_assoc]

theorem container_join_eq (d : String) (si : Nat) (l : List String) :
    String.join ((List.enumFrom si l).map (fun p => (if si < p.1 then d else "") ++ p.2)) =
      joinSepS d l := by
  cases l with
  | nil => rfl
  | cons a rest =>
    show String.join
      (((si, a) :: List.enumFrom (si + 1) rest).map
        (fun p => (if si < p.1 then d else "") ++ p.2)) = joinSepS d (a :: rest)
    rw [List.map_cons, string_join_cons]
    show ((if si < si then d else "") ++ a) ++ _ = _
    rw [if_neg (lt_irrefl si), string_empty_append,
      enumFrom_map_delim d si rest (si + 1) (by omega)]
    exact join_map_delim d rest a

/-- Claim C7 counterexample: with `max_items = 0` on a nonempty container
the shown window is empty but elements remain; the source emits just the
ellipsis ("[...]"), while the claimed algorithm appends the delimiter and
then the ellipsis ("[, ...]"). -/
theorem container_format_empty_window_counterexample :
    container_format ["a"] 0 0 "[" "]" ", " "..." false false "  " = "[...]" ∧
      container_format_spec ["a"] 0 0 "[" "]" ", " "..." = "[, ...]" ∧
      container_format ["a"] 0 0 "[" "]" ", " "..." false false "  " ≠
        container_format_spec ["a"] 0 0 "[" "]" ", " "..." := by
  decide

/-- Claim C7 (amended): the container formatter renders prefix and suffix
only when the start index reaches or exceeds the container size (so
`start_index = 100` on a 3-element sequence yields "[]"); otherwise it shows
`items_to_show = min(max_items, size - start_index)` elements from
`start_index` with the delimiter between them, and when elements remain
beyond the shown window appends the delimiter (only if at least one element
was shown) and then the ellipsis, all wrapped in prefix/suffix. -/
theorem container_format_claim (elems : List String) (mi si : Nat)
    (pfx sfx d el ind : String) :
    (elems.length ≤ si →
      container_format elems mi si pfx sfx d el false false ind = pfx ++ sfx) ∧
      (si < elems.length →
        container_format elems mi si pfx sfx d el false false ind =
          pfx ++ joinSepS d ((elems.drop si).take (min mi (elems.length - si))) ++
            (if si + min mi (elems.length - si) < elems.length then
              (if 0 < min mi (elems.length - si) then d else "") ++ el
            else "") ++ sfx) ∧
      container_format ["x", "y", "z"] mi 100 "[" "]" d el false false ind = "[]" := by
  have h1 : elems.length ≤ si →
      container_format elems mi si pfx sfx d el false false ind = pfx ++ sfx := by
    intro h
    unfold container_format
    simp only []
    rw [if_neg (by omega)]
  refine ⟨h1, ?_, ?_⟩
  · intro h
    unfold container_format
    simp only []
    rw [if_pos h]
    simp only [if_false, string_append_empty, string_empty_append,
      Bool.false_eq_true, false_and, and_false]
    rw [container_join_eq d si ((elems.drop si).take (min mi (elems.length - si)))]
  · unfold container_format
    simp only []
    rw [if_neg (by simp)]
    rfl

/-- Claim C7 (amended) witness: the theorem applied to a 3-element sequence
with start index 100 (clamped: prefix and suffix only) and to a 5-element
sequence truncated to 3 shown items (delimiter then ellipsis appended). -/
theorem container_format_claim_witness :
    container_format ["x", "y", "z"] 1000000 100 "[" "]" ", " "..." false false "  " =
        "[" ++ "]" ∧
      container_format ["1", "2", "3", "4", "5"] 3 0 "[" "]" ", " "..." false false "  " =
        "[" ++
          joinSepS ", " (((["1", "2", "3", "4", "5"] : List String).drop 0).take
            (min 3 ((["1", "2", "3", "4", "5"] : List String).length - 0))) ++
          (if 0 + min 3 ((["1", "2", "3", "4", "5"] : List String).length - 0) <
              (["1", "2", "3", "4", "5"] : List String).length then
            (if 0 < min 3 ((["1", "2", "3", "4", "5"] : List String).length - 0) then ", "
            else "") ++ "..."
          else "") ++ "]" :=
  ⟨(container_format_claim ["x", "y", "z"] 1000000 100 "[" "]" ", " "..." "  ").1
      (by decide),
    (container_format_claim ["1", "2", "3", "4", "5"] 3 0 "[" "]" ", " "..." "  ").2.1
      (by decide)⟩

end Failsafe
